import Mathlib

/-!
Verification development for the Recognizer repository
(`my_recognizer.py` and `my_model_selectors.py`).

The external sequence-model capability (hmmlearn's `GaussianHMM.fit` /
`Model.score`) is opaque in the source; following the spec it is modelled
by oracle functions.  A scoring call that raises an exception is `none`;
the Python code converts such a failure into `float('-inf')`, modelled by
`⊥ : WithBot ℚ`.  Log-likelihoods are rationals (the spec's opaque floats).
-/

/-- `toLogL` models the `try: logL = model.score(...) except: logL = float('-inf')`
pattern in `recognize`: a successful score is the value itself, a raised
exception becomes negative infinity (`⊥`). -/
def toLogL : Option ℚ → WithBot ℚ
  | some q => (q : WithBot ℚ)
  | none => ⊥

/-- One test item's `prob_dict`: every `(word, model)` pair of `models`
is scored on the item `x` (a model is its scoring behaviour `ι → Option ℚ`),
failures recorded as `⊥`.  Python dicts iterate in insertion order, so the
dict is a list of pairs. -/
def scoreRow {ι : Type} (models : List (String × (ι → Option ℚ))) (x : ι) :
    List (String × WithBot ℚ) :=
  models.map fun p => (p.1, toLogL (p.2 x))

/-- The inner loop of `recognize`: running maximum `m` (`logL_max`) and the
current `best_word`; `if logL > logL_max` updates both. -/
def pickBest : List (String × WithBot ℚ) → WithBot ℚ → String → String
  | [], _, best => best
  | p :: rest, m, best =>
    if m < p.2 then pickBest rest p.2 p.1 else pickBest rest m best

/-- The outer loop of `recognize` over the test items.  `logL_max` is reset
to `-inf` for each item, but `best_word` is NOT: it threads through from one
item to the next, exactly as in the source (line 24 vs line 28 of
`my_recognizer.py`). -/
def recognizeAux {ι : Type} (models : List (String × (ι → Option ℚ))) :
    List ι → String → List (List (String × WithBot ℚ)) × List String
  | [], _ => ([], [])
  | x :: xs, best =>
    let row := scoreRow models x
    let best2 := pickBest row ⊥ best
    let rest := recognizeAux models xs best2
    (row :: rest.1, best2 :: rest.2)

/-- `recognize(models, test_set)` returning `(probabilities, guesses)`;
`best_word` starts as the empty string. -/
def recognize {ι : Type} (models : List (String × (ι → Option ℚ)))
    (test : List ι) : List (List (String × WithBot ℚ)) × List String :=
  recognizeAux models test ""

/-- Maximum score appearing in one item's `prob_dict` (its `-inf` if empty). -/
def maxS : List (String × WithBot ℚ) → WithBot ℚ
  | [] => ⊥
  | p :: rest => max p.2 (maxS rest)

/-- First word of the row whose score equals `v` (the spec's first-seen
maximal label, when `v` is the row's maximum). -/
def firstWith : List (String × WithBot ℚ) → WithBot ℚ → Option String
  | [], _ => none
  | p :: rest, v => if p.2 = v then some p.1 else firstWith rest v

theorem pickBest_max (l : List (String × WithBot ℚ)) :
    ∀ (m : WithBot ℚ) (best : String),
      (maxS l ≤ m → pickBest l m best = best) ∧
      (m < maxS l → some (pickBest l m best) = firstWith l (maxS l)) := by
  induction l with
  | nil =>
    intro m best
    refine ⟨fun _ => rfl, fun h => absurd h (not_lt_bot)⟩
  | cons p rest ih =>
    intro m best
    constructor
    · intro hle
      have h1 : p.2 ≤ m := le_trans (le_max_left _ _) hle
      have h2 : maxS rest ≤ m := le_trans (le_max_right _ _) hle
      simp only [pickBest, if_neg (not_lt.mpr h1)]
      exact (ih m best).1 h2
    · intro hlt
      by_cases hc : m < p.2
      · simp only [pickBest, if_pos hc]
        by_cases h2 : maxS rest ≤ p.2
        · have hmax : maxS (p :: rest) = p.2 := by
            simp only [maxS]; exact max_eq_left h2
          rw [hmax, (ih p.2 p.1).1 h2]
          simp [firstWith]
        · push_neg at h2
          have hmax : maxS (p :: rest) = maxS rest := by
            simp only [maxS]; exact max_eq_right (le_of_lt h2)
          rw [hmax, (ih p.2 p.1).2 h2]
          simp only [firstWith, if_neg (ne_of_lt h2)]
      · push_neg at hc
        have hm : m < maxS rest := by
          rcases lt_max_iff.mp (by simpa only [maxS] using hlt) with h | h
          · exact absurd (lt_of_lt_of_le h hc) (lt_irrefl _)
          · exact h
        have hmax : maxS (p :: rest) = maxS rest := by
          simp only [maxS]
          exact max_eq_right (le_of_lt (lt_of_le_of_lt hc hm))
        simp only [pickBest, if_neg (not_lt.mpr hc)]
        rw [hmax, (ih m best).2 hm]
        simp only [firstWith,
          if_neg (ne_of_lt (lt_of_le_of_lt hc hm))]

theorem recognizeAux_probs {ι : Type} (models : List (String × (ι → Option ℚ))) :
    ∀ (test : List ι) (b : String),
      (recognizeAux models test b).1 = test.map (scoreRow models) := by
  intro test
  induction test with
  | nil => intro b; rfl
  | cons x xs ih =>
    intro b
    simp only [recognizeAux, List.map_cons, ih]

theorem recognizeAux_guesses_length {ι : Type}
    (models : List (String × (ι → Option ℚ))) :
    ∀ (test : List ι) (b : String),
      (recognizeAux models test b).2.length = test.length := by
  intro test
  induction test with
  | nil => intro b; rfl
  | cons x xs ih =>
    intro b
    simp only [recognizeAux, List.length_cons, ih]

theorem recognizeAux_guess {ι : Type} (models : List (String × (ι → Option ℚ))) :
    ∀ (test : List ι) (b : String) (i : ℕ) (hi : i < test.length),
      ⊥ < maxS (scoreRow models (test.get ⟨i, hi⟩)) →
      some ((recognizeAux models test b).2.getD i "") =
        firstWith (scoreRow models (test.get ⟨i, hi⟩))
          (maxS (scoreRow models (test.get ⟨i, hi⟩))) := by
  intro test
  induction test with
  | nil =>
    intro b i hi
    exact absurd hi (by simp)
  | cons x xs ih =>
    intro b i hi hpos
    cases i with
    | zero =>
      simp only [List.get] at hpos ⊢
      simp only [recognizeAux, List.getD_cons_zero]
      exact (pickBest_max (scoreRow models x) ⊥ b).2 hpos
    | succ j =>
      simp only [List.get] at hpos ⊢
      simp only [recognizeAux, List.getD_cons_succ]
      exact ih (pickBest (scoreRow models x) ⊥ b) j
        (by simpa using Nat.lt_of_succ_lt_succ hi) hpos

/-- Concrete model table whose single model always raises on scoring. -/
def recModelsF : List (String × (ℕ → Option ℚ)) := [("A", fun _ => none)]

/-- Concrete model table with two models that tie at score 5. -/
def recModelsW : List (String × (ℕ → Option ℚ)) :=
  [("A", fun _ => some 5), ("B", fun _ => some 5)]

/-- C1 counterexample: with the non-empty model table `recModelsF` and one
test item, every score of the item is `-inf`, so `if logL > logL_max` never
fires and the guess stays the initial empty string, while the first-seen
maximal label of `probabilities[0]` is `"A"`.  The claim as stated fails. -/
theorem recognize_guess_counterexample :
    (recognize recModelsF [0]).2.getD 0 "" = "" ∧
    firstWith ((recognize recModelsF [0]).1.getD 0 [])
      (maxS ((recognize recModelsF [0]).1.getD 0 [])) = some "A" ∧
    ("" : String) ≠ "A" := by
  decide

/-- C1 (amended): for every model table and test set, for every item `i`
whose probability row contains at least one score strictly above `-inf`,
`guesses[i]` is the first-seen label attaining the maximum score of
`probabilities[i]` (strict `>` keeps the first maximal label on ties). -/
theorem recognize_guess_first_max {ι : Type}
    (models : List (String × (ι → Option ℚ))) (test : List ι) (i : ℕ)
    (hi : i < test.length)
    (hpos : ⊥ < maxS ((recognize models test).1.getD i [])) :
    some ((recognize models test).2.getD i "") =
      firstWith ((recognize models test).1.getD i [])
        (maxS ((recognize models test).1.getD i [])) := by
  have hrow : (recognize models test).1.getD i [] =
      scoreRow models (test.get ⟨i, hi⟩) := by
    unfold recognize
    rw [recognizeAux_probs]
    rw [List.getD_eq_getElem _ _ (by simpa using hi), List.getElem_map]
    simp [List.get_eq_getElem]
  rw [hrow] at hpos ⊢
  exact recognizeAux_guess models test "" i hi hpos

/-- C1 witness: two models tie at score 5; the first label `"A"` wins. -/
theorem recognize_guess_first_max_witness :
    some ((recognize recModelsW [0]).2.getD 0 "") =
      firstWith ((recognize recModelsW [0]).1.getD 0 [])
        (maxS ((recognize recModelsW [0]).1.getD 0 [])) :=
  recognize_guess_first_max recModelsW [0] 0 (by decide) (by decide)

/-- C7: if scoring a test item against some label's model raises, the score
recorded for that label in the item's probability row is `-inf` (`⊥`), and
every item is still processed: both outputs have one entry per test item. -/
theorem recognize_failure_neg_inf {ι : Type}
    (models : List (String × (ι → Option ℚ))) (test : List ι) (i : ℕ)
    (hi : i < test.length) (w : String) (mo : ι → Option ℚ)
    (hm : (w, mo) ∈ models) (hf : mo (test.get ⟨i, hi⟩) = none) :
    (w, (⊥ : WithBot ℚ)) ∈ (recognize models test).1.getD i [] ∧
    (recognize models test).1.length = test.length ∧
    (recognize models test).2.length = test.length := by
  have hrow : (recognize models test).1.getD i [] =
      scoreRow models (test.get ⟨i, hi⟩) := by
    unfold recognize
    rw [recognizeAux_probs]
    rw [List.getD_eq_getElem _ _ (by simpa using hi), List.getElem_map]
    simp [List.get_eq_getElem]
  refine ⟨?_, ?_, ?_⟩
  · rw [hrow]
    exact List.mem_map.mpr ⟨(w, mo), hm, by
      simp only [List.get_eq_getElem] at hf
      simp [toLogL, hf]⟩
  · unfold recognize
    rw [recognizeAux_probs]
    simp
  · unfold recognize
    rw [recognizeAux_guesses_length]

/-- C7 witness: the single model of `recModelsF` raises on item 0; the row
records `("A", ⊥)` and both outputs still have length 1. -/
theorem recognize_failure_neg_inf_witness :
    (("A", (⊥ : WithBot ℚ)) ∈ (recognize recModelsF [0]).1.getD 0 []) ∧
    (recognize recModelsF [0]).1.length = [0].length ∧
    (recognize recModelsF [0]).2.length = [0].length :=
  recognize_failure_neg_inf recModelsF [0] 0 (by decide) "A" (fun _ => none)
    (List.mem_singleton.mpr rfl) rfl

/-- `ModelSelector.base_model(num_states)`: the external fit capability
(`GaussianHMM(n_components, covariance_type, n_iter, random_state).fit`)
either returns a model or raises; the `try/except` converts a raised
training failure into `None` instead of propagating it, and returns the
trained model on success. -/
def base_model {M : Type} (fit : ℕ → Except String M) (numStates : ℕ) :
    Option M :=
  match fit numStates with
  | .ok m => some m
  | .error _ => none

/-- C8: `base_model` returns null (`none`) on any training failure — the
exception is not propagated (the return type carries no exception) — and
returns the trained model on success. -/
theorem base_model_error_handling {M : Type} (fit : ℕ → Except String M)
    (n : ℕ) :
    (∀ e, fit n = .error e → base_model fit n = none) ∧
    (∀ m, fit n = .ok m → base_model fit n = some m) := by
  constructor
  · intro e he
    unfold base_model
    rw [he]
  · intro m hm
    unfold base_model
    rw [hm]

/-- Concrete fit capability failing exactly at 0 states. -/
def fitW : ℕ → Except String ℕ :=
  fun n => if n = 0 then .error "fit failure" else .ok n

/-- C8 witness: `fitW` fails at 0 states and succeeds at 1. -/
theorem base_model_error_handling_witness :
    base_model fitW 0 = none ∧ base_model fitW 1 = some 1 :=
  ⟨(base_model_error_handling fitW 0).1 "fit failure" rfl,
   (base_model_error_handling fitW 1).2 1 rfl⟩

/-- The candidate component counts `range(min_n_components, max_n_components + 1)`. -/
def candidates (minN maxN : ℕ) : List ℕ :=
  List.range' minN (maxN + 1 - minN)

/-- `sumLogL`-style collection: scores a list of inputs with an oracle,
failing (raising) as soon as any single score raises. -/
def collectScores {α : Type} (f : α → Option ℚ) : List α → Option (List ℚ)
  | [] => some []
  | a :: rest =>
    match f a with
    | none => none
    | some v =>
      match collectScores f rest with
      | none => none
      | some vs => some (v :: vs)

/-- The `if BIC < min_BIC` tracking loop: `acc = (best_num_components, min_BIC)`
with `min_BIC` starting at `np.inf` (`⊤`); a candidate whose computation
raised (`none`) is skipped by the `except: pass`. -/
def minLoop (f : ℕ → Option ℚ) : List ℕ → ℕ × WithTop ℚ → ℕ × WithTop ℚ
  | [], acc => acc
  | n :: rest, acc =>
    match f n with
    | none => minLoop f rest acc
    | some v =>
      if (v : WithTop ℚ) < acc.2 then minLoop f rest (n, v)
      else minLoop f rest acc

/-- The `if DIC > max_DIC` / `if logL_avg > best_avg` tracking loop:
`acc = (best_num_components, best)` with `best` starting at `-np.inf` (`⊥`). -/
def maxLoop (f : ℕ → Option ℚ) : List ℕ → ℕ × WithBot ℚ → ℕ × WithBot ℚ
  | [], acc => acc
  | n :: rest, acc =>
    match f n with
    | none => maxLoop f rest acc
    | some v =>
      if acc.2 < (v : WithBot ℚ) then maxLoop f rest (n, v)
      else maxLoop f rest acc


theorem minLoop_le_acc (f : ℕ → Option ℚ) :
    ∀ (l : List ℕ) (acc : ℕ × WithTop ℚ), (minLoop f l acc).2 ≤ acc.2 := by
  intro l
  induction l with
  | nil => intro acc; exact le_refl _
  | cons n rest ih =>
    intro acc
    cases hf : f n with
    | none => simp only [minLoop, hf]; exact ih acc
    | some v =>
      simp only [minLoop, hf]
      by_cases hv : (v : WithTop ℚ) < acc.2
      · rw [if_pos hv]
        exact le_trans (ih (n, v)) (le_of_lt hv)
      · rw [if_neg hv]
        exact ih acc

theorem minLoop_le (f : ℕ → Option ℚ) :
    ∀ (l : List ℕ) (acc : ℕ × WithTop ℚ) (n : ℕ) (v : ℚ), n ∈ l →
      f n = some v → (minLoop f l acc).2 ≤ (v : WithTop ℚ) := by
  intro l
  induction l with
  | nil => intro acc n v hn; exact absurd hn (List.not_mem_nil n)
  | cons m rest ih =>
    intro acc n v hn hv
    rcases List.mem_cons.mp hn with h | h
    · subst h
      simp only [minLoop, hv]
      by_cases hlt : (v : WithTop ℚ) < acc.2
      · rw [if_pos hlt]
        exact minLoop_le_acc f rest (n, v)
      · rw [if_neg hlt]
        exact le_trans (minLoop_le_acc f rest acc) (not_lt.mp hlt)
    · cases hf : f m with
      | none => simp only [minLoop, hf]; exact ih acc n v h hv
      | some w =>
        simp only [minLoop, hf]
        by_cases hlt : (w : WithTop ℚ) < acc.2
        · rw [if_pos hlt]; exact ih (m, w) n v h hv
        · rw [if_neg hlt]; exact ih acc n v h hv

theorem minLoop_cases (f : ℕ → Option ℚ) :
    ∀ (l : List ℕ) (acc : ℕ × WithTop ℚ),
      minLoop f l acc = acc ∨
      ∃ n ∈ l, ∃ v : ℚ, f n = some v ∧ minLoop f l acc = (n, (v : WithTop ℚ)) := by
  intro l
  induction l with
  | nil => intro acc; exact Or.inl rfl
  | cons m rest ih =>
    intro acc
    cases hf : f m with
    | none =>
      simp only [minLoop, hf]
      rcases ih acc with h | ⟨n, hn, v, hv, he⟩
      · exact Or.inl h
      · exact Or.inr ⟨n, List.mem_cons_of_mem m hn, v, hv, he⟩
    | some w =>
      simp only [minLoop, hf]
      by_cases hlt : (w : WithTop ℚ) < acc.2
      · rw [if_pos hlt]
        rcases ih (m, w) with h | ⟨n, hn, v, hv, he⟩
        · exact Or.inr ⟨m, List.mem_cons_self m rest, w, hf, h⟩
        · exact Or.inr ⟨n, List.mem_cons_of_mem m hn, v, hv, he⟩
      · rw [if_neg hlt]
        rcases ih acc with h | ⟨n, hn, v, hv, he⟩
        · exact Or.inl h
        · exact Or.inr ⟨n, List.mem_cons_of_mem m hn, v, hv, he⟩

theorem minLoop_none (f : ℕ → Option ℚ) :
    ∀ (l : List ℕ) (acc : ℕ × WithTop ℚ), (∀ n ∈ l, f n = none) →
      minLoop f l acc = acc := by
  intro l
  induction l with
  | nil => intro acc _; rfl
  | cons m rest ih =>
    intro acc hall
    simp only [minLoop, hall m (List.mem_cons_self m rest)]
    exact ih acc fun n hn => hall n (List.mem_cons_of_mem m hn)

theorem maxLoop_acc_le (f : ℕ → Option ℚ) :
    ∀ (l : List ℕ) (acc : ℕ × WithBot ℚ), acc.2 ≤ (maxLoop f l acc).2 := by
  intro l
  induction l with
  | nil => intro acc; exact le_refl _
  | cons n rest ih =>
    intro acc
    cases hf : f n with
    | none => simp only [maxLoop, hf]; exact ih acc
    | some v =>
      simp only [maxLoop, hf]
      by_cases hv : acc.2 < (v : WithBot ℚ)
      · rw [if_pos hv]
        exact le_trans (le_of_lt hv) (ih (n, v))
      · rw [if_neg hv]
        exact ih acc

theorem maxLoop_le (f : ℕ → Option ℚ) :
    ∀ (l : List ℕ) (acc : ℕ × WithBot ℚ) (n : ℕ) (v : ℚ), n ∈ l →
      f n = some v → (v : WithBot ℚ) ≤ (maxLoop f l acc).2 := by
  intro l
  induction l with
  | nil => intro acc n v hn; exact absurd hn (List.not_mem_nil n)
  | cons m rest ih =>
    intro acc n v hn hv
    rcases List.mem_cons.mp hn with h | h
    · subst h
      simp only [maxLoop, hv]
      by_cases hlt : acc.2 < (v : WithBot ℚ)
      · rw [if_pos hlt]
        exact maxLoop_acc_le f rest (n, v)
      · rw [if_neg hlt]
        exact le_trans (not_lt.mp hlt) (maxLoop_acc_le f rest acc)
    · cases hf : f m with
      | none => simp only [maxLoop, hf]; exact ih acc n v h hv
      | some w =>
        simp only [maxLoop, hf]
        by_cases hlt : acc.2 < (w : WithBot ℚ)
        · rw [if_pos hlt]; exact ih (m, w) n v h hv
        · rw [if_neg hlt]; exact ih acc n v h hv

theorem maxLoop_cases (f : ℕ → Option ℚ) :
    ∀ (l : List ℕ) (acc : ℕ × WithBot ℚ),
      maxLoop f l acc = acc ∨
      ∃ n ∈ l, ∃ v : ℚ, f n = some v ∧ maxLoop f l acc = (n, (v : WithBot ℚ)) := by
  intro l
  induction l with
  | nil => intro acc; exact Or.inl rfl
  | cons m rest ih =>
    intro acc
    cases hf : f m with
    | none =>
      simp only [maxLoop, hf]
      rcases ih acc with h | ⟨n, hn, v, hv, he⟩
      · exact Or.inl h
      · exact Or.inr ⟨n, List.mem_cons_of_mem m hn, v, hv, he⟩
    | some w =>
      simp only [maxLoop, hf]
      by_cases hlt : acc.2 < (w : WithBot ℚ)
      · rw [if_pos hlt]
        rcases ih (m, w) with h | ⟨n, hn, v, hv, he⟩
        · exact Or.inr ⟨m, List.mem_cons_self m rest, w, hf, h⟩
        · exact Or.inr ⟨n, List.mem_cons_of_mem m hn, v, hv, he⟩
      · rw [if_neg hlt]
        rcases ih acc with h | ⟨n, hn, v, hv, he⟩
        · exact Or.inl h
        · exact Or.inr ⟨n, List.mem_cons_of_mem m hn, v, hv, he⟩

theorem maxLoop_none (f : ℕ → Option ℚ) :
    ∀ (l : List ℕ) (acc : ℕ × WithBot ℚ), (∀ n ∈ l, f n = none) →
      maxLoop f l acc = acc := by
  intro l
  induction l with
  | nil => intro acc _; rfl
  | cons m rest ih =>
    intro acc hall
    simp only [maxLoop, hall m (List.mem_cons_self m rest)]
    exact ih acc fun n hn => hall n (List.mem_cons_of_mem m hn)

/-- The free-parameter count as the source actually computes it:
`p = n** + 2 * n * model.n_features - 1` (my_model_selectors.py line 84),
which Python parses as `(n ** (+2)) * n * d - 1` because `**` binds tighter
than `*` and the `+` is a unary plus on `2`. -/
def bic_p_code (n d : ℕ) : ℤ :=
  (n : ℤ) ^ 2 * n * d - 1

/-- Modelled from the spec: the intended free-parameter count
`p = n*n + 2*n*d - 1` for an n-state model with diagonal covariance over d
features (spec sections 4.3 and 9); written from the spec's words for
comparison against `bic_p_code`. -/
def bic_p_spec (n d : ℕ) : ℤ :=
  (n : ℤ) * n + 2 * n * d - 1

/-- C2: the source line `p = n** + 2 * n * model.n_features - 1` does not
compute the claimed `n*n + 2*n*d - 1`: at `n = 3` states and `d = 1`
feature the code yields `3^2*3*1 - 1 = 26` while the intended formula of
the claim yields `9 + 6 - 1 = 14`. -/
theorem bic_p_code_ne_spec :
    bic_p_code 3 1 = 26 ∧ bic_p_spec 3 1 = 14 ∧ (26 : ℤ) ≠ 14 := by
  decide

/-- The training context of `SelectorBIC.select`.  `train n` is the combined
outcome of `GaussianHMM(n_components=n).fit(X, lengths)` followed by
`model.score(X, lengths)`: `none` when either raises, otherwise the pair
`(logL, model.n_features)`.  `logN` abstracts the fixed value
`np.log(len(self.X))` and `baseFit` the seeded fit used by `base_model`. -/
structure BICContext (M : Type) where
  minN : ℕ
  maxN : ℕ
  train : ℕ → Option (ℚ × ℕ)
  logN : ℚ
  baseFit : ℕ → Except String M

/-- One candidate's BIC score: `BIC = -2 * logL + p * np.log(len(self.X))`
with the code's `p`; `none` when training or scoring raised. -/
def bicCandidate {M : Type} (ctx : BICContext M) (n : ℕ) : Option ℚ :=
  match ctx.train n with
  | none => none
  | some r => some (-2 * r.1 + ((bic_p_code n r.2 : ℤ) : ℚ) * ctx.logN)

/-- `best_num_components` after the BIC loop: minimum tracking starting from
the sentinel `(0, np.inf)`. -/
def bicBestN {M : Type} (ctx : BICContext M) : ℕ :=
  (minLoop (bicCandidate ctx) (candidates ctx.minN ctx.maxN) (0, ⊤)).1

/-- `SelectorBIC.select`: run the loop, then `return self.base_model(best_num_components)`. -/
def SelectorBIC.select {M : Type} (ctx : BICContext M) : Option M :=
  base_model ctx.baseFit (bicBestN ctx)

/-- C3: `SelectorBIC.select` (a) picks a successfully trained candidate of
minimal BIC whenever any candidate trained and scored, returning
`base_model(best_n)`, and (b) when no candidate ever trained, keeps the
sentinel `best_n = 0`, so the result is `base_model(0)` — null, since
fitting a 0-state model fails. -/
theorem SelectorBIC_select_minimizes {M : Type} (ctx : BICContext M) :
    (∀ n₀ ∈ candidates ctx.minN ctx.maxN, ∀ v₀ : ℚ,
      bicCandidate ctx n₀ = some v₀ →
      ∃ v : ℚ, bicBestN ctx ∈ candidates ctx.minN ctx.maxN ∧
        bicCandidate ctx (bicBestN ctx) = some v ∧
        (∀ m ∈ candidates ctx.minN ctx.maxN, ∀ w : ℚ,
          bicCandidate ctx m = some w → v ≤ w) ∧
        SelectorBIC.select ctx = base_model ctx.baseFit (bicBestN ctx)) ∧
    ((∀ n ∈ candidates ctx.minN ctx.maxN, bicCandidate ctx n = none) →
      bicBestN ctx = 0 ∧
      (base_model ctx.baseFit 0 = none → SelectorBIC.select ctx = none)) := by
  constructor
  · intro n₀ hn₀ v₀ hv₀
    have hle := minLoop_le (bicCandidate ctx) (candidates ctx.minN ctx.maxN)
      (0, ⊤) n₀ v₀ hn₀ hv₀
    have hlt : (minLoop (bicCandidate ctx) (candidates ctx.minN ctx.maxN)
        (0, ⊤)).2 < ⊤ := lt_of_le_of_lt hle (WithTop.coe_lt_top v₀)
    rcases minLoop_cases (bicCandidate ctx) (candidates ctx.minN ctx.maxN)
        (0, ⊤) with h | ⟨n, hn, v, hv, he⟩
    · rw [h] at hlt
      exact absurd hlt (lt_irrefl _)
    · refine ⟨v, ?_, ?_, ?_, rfl⟩
      · unfold bicBestN
        rw [he]
        exact hn
      · unfold bicBestN
        rw [he]
        exact hv
      · intro m hm w hw
        have := minLoop_le (bicCandidate ctx) (candidates ctx.minN ctx.maxN)
          (0, ⊤) m w hm hw
        rw [he] at this
        exact WithTop.coe_le_coe.mp this
  · intro hall
    have h := minLoop_none (bicCandidate ctx) (candidates ctx.minN ctx.maxN)
      (0, ⊤) hall
    have hbest : bicBestN ctx = 0 := by
      unfold bicBestN
      rw [h]
    refine ⟨hbest, fun h0 => ?_⟩
    unfold SelectorBIC.select
    rw [hbest]
    exact h0

/-- Concrete BIC context: candidate 2 trains with logL = -10 on 1 feature,
candidate 3 fails; the seeded base fit fails only at 0 states. -/
def bicCtxW : BICContext ℕ where
  minN := 2
  maxN := 3
  train := fun n => if n = 2 then some (-10, 1) else none
  logN := 0
  baseFit := fitW

/-- C3 witness: in `bicCtxW` candidate 2 scores `BIC = 20`; the selector
picks a candidate from the range and returns `base_model(best_n)`. -/
theorem SelectorBIC_select_minimizes_witness :
    bicBestN bicCtxW ∈ candidates bicCtxW.minN bicCtxW.maxN ∧
    SelectorBIC.select bicCtxW = base_model bicCtxW.baseFit (bicBestN bicCtxW) := by
  obtain ⟨v, hmem, hv, hopt, hsel⟩ :=
    (SelectorBIC_select_minimizes bicCtxW).1 2 (by decide) 20
      (by norm_num [bicCandidate, bicCtxW, bic_p_code])
  exact ⟨hmem, hsel⟩

/-- The training context of `SelectorDIC.select`.  `words` is the key list
of `self.words` in dict iteration order, `trainScore n` the combined
outcome of `GaussianHMM(n_components=n).fit` plus `model.score` on this
word's own data, and `scoreOther n w` the outcome of scoring that model on
`self.hwords[w]`. -/
structure DICContext (M : Type) where
  words : List String
  thisWord : String
  minN : ℕ
  maxN : ℕ
  trainScore : ℕ → Option ℚ
  scoreOther : ℕ → String → Option ℚ
  baseFit : ℕ → Except String M

/-- One DIC candidate: train and self-score, score the model on every other
word's data (any raised exception aborts the candidate), then
`DIC = logL - sumLogL / (len(self.words) - 1)`.  When there is exactly one
word the division is by zero — a `ZeroDivisionError`, caught by the blanket
`except`, so the candidate yields `none`. -/
def dicCandidate {M : Type} (ctx : DICContext M) (n : ℕ) : Option ℚ :=
  match ctx.trainScore n with
  | none => none
  | some logL =>
    match collectScores (ctx.scoreOther n)
        (ctx.words.filter fun w => w != ctx.thisWord) with
    | none => none
    | some scores =>
      if ctx.words.length - 1 = 0 then none
      else some (logL - scores.sum / ((ctx.words.length - 1 : ℕ) : ℚ))

/-- `best_num_components` after the DIC loop: maximum tracking starting from
the sentinel `(0, -np.inf)`. -/
def dicBestN {M : Type} (ctx : DICContext M) : ℕ :=
  (maxLoop (dicCandidate ctx) (candidates ctx.minN ctx.maxN) (0, ⊥)).1

/-- `SelectorDIC.select`: run the loop, then `return self.base_model(best_num_components)`. -/
def SelectorDIC.select {M : Type} (ctx : DICContext M) : Option M :=
  base_model ctx.baseFit (dicBestN ctx)

/-- C5: whenever some candidate trains and scores throughout, the chosen
`best_num_components` is a candidate in range whose DIC
`logL_self - sum(logL_others)/(len(words)-1)` is maximal among all
candidates that succeeded; candidates with any failing step are skipped,
and the result is `base_model(best_n)`. -/
theorem SelectorDIC_select_maximizes {M : Type} (ctx : DICContext M)
    (n₀ : ℕ) (hn₀ : n₀ ∈ candidates ctx.minN ctx.maxN) (v₀ : ℚ)
    (hv₀ : dicCandidate ctx n₀ = some v₀) :
    ∃ v : ℚ, dicBestN ctx ∈ candidates ctx.minN ctx.maxN ∧
      dicCandidate ctx (dicBestN ctx) = some v ∧
      (∀ m ∈ candidates ctx.minN ctx.maxN, ∀ w : ℚ,
        dicCandidate ctx m = some w → w ≤ v) ∧
      SelectorDIC.select ctx = base_model ctx.baseFit (dicBestN ctx) := by
  have hle := maxLoop_le (dicCandidate ctx) (candidates ctx.minN ctx.maxN)
    (0, ⊥) n₀ v₀ hn₀ hv₀
  have hlt : ⊥ < (maxLoop (dicCandidate ctx) (candidates ctx.minN ctx.maxN)
      (0, ⊥)).2 := lt_of_lt_of_le (WithBot.bot_lt_coe v₀) hle
  rcases maxLoop_cases (dicCandidate ctx) (candidates ctx.minN ctx.maxN)
      (0, ⊥) with h | ⟨n, hn, v, hv, he⟩
  · rw [h] at hlt
    exact absurd hlt (lt_irrefl _)
  · refine ⟨v, ?_, ?_, ?_, rfl⟩
    · unfold dicBestN
      rw [he]
      exact hn
    · unfold dicBestN
      rw [he]
      exact hv
    · intro m hm w hw
      have := maxLoop_le (dicCandidate ctx) (candidates ctx.minN ctx.maxN)
        (0, ⊥) m w hm hw
      rw [he] at this
      exact WithBot.coe_le_coe.mp this

/-- Concrete DIC context with two words: candidate 2 reaches DIC 10,
candidate 3 reaches DIC 1, candidates beyond fail. -/
def dicCtxW : DICContext ℕ where
  words := ["A", "B"]
  thisWord := "A"
  minN := 2
  maxN := 3
  trainScore := fun n => if n = 2 then some 10 else if n = 3 then some 1 else none
  scoreOther := fun _ _ => some 0
  baseFit := fitW

/-- C5 witness: in `dicCtxW` candidate 2 has DIC `10 - 0/1 = 10`; the
selector returns `base_model(best_num_components)` for an in-range best. -/
theorem SelectorDIC_select_maximizes_witness :
    dicBestN dicCtxW ∈ candidates dicCtxW.minN dicCtxW.maxN ∧
    SelectorDIC.select dicCtxW = base_model dicCtxW.baseFit (dicBestN dicCtxW) := by
  obtain ⟨v, hmem, hv, hopt, hsel⟩ :=
    SelectorDIC_select_maximizes dicCtxW 2 (by decide) 10
      (by norm_num [dicCandidate, dicCtxW, collectScores])
  exact ⟨hmem, hsel⟩

/-- C10: with exactly one word in the training set, every DIC candidate is
swallowed by the blanket `except` (once training and the empty other-word
loop succeed, `sumLogL / (len(self.words) - 1)` raises `ZeroDivisionError`),
so `best_num_components` keeps the sentinel 0 and the result is
`base_model(0)`, which is null because fitting a 0-state model fails. -/
theorem SelectorDIC_single_label {M : Type} (ctx : DICContext M)
    (h1 : ctx.words.length = 1) (h0 : base_model ctx.baseFit 0 = none) :
    (∀ n, dicCandidate ctx n = none) ∧ dicBestN ctx = 0 ∧
    SelectorDIC.select ctx = none := by
  have hcand : ∀ n, dicCandidate ctx n = none := by
    intro n
    unfold dicCandidate
    cases ctx.trainScore n with
    | none => rfl
    | some logL =>
      cases collectScores (ctx.scoreOther n)
          (ctx.words.filter fun w => w != ctx.thisWord) with
      | none => rfl
      | some scores =>
        simp [h1]
  have hbest : dicBestN ctx = 0 := by
    unfold dicBestN
    rw [maxLoop_none (dicCandidate ctx) (candidates ctx.minN ctx.maxN) (0, ⊥)
      fun n _ => hcand n]
  refine ⟨hcand, hbest, ?_⟩
  unfold SelectorDIC.select
  rw [hbest]
  exact h0

/-- Concrete single-word DIC context. -/
def dicCtx1 : DICContext ℕ where
  words := ["A"]
  thisWord := "A"
  minN := 2
  maxN := 3
  trainScore := fun _ => some 5
  scoreOther := fun _ _ => some 0
  baseFit := fitW

/-- C10 witness: the single-word context yields no viable candidate, keeps
the sentinel 0 and returns null. -/
theorem SelectorDIC_single_label_witness :
    dicCandidate dicCtx1 2 = none ∧ dicBestN dicCtx1 = 0 ∧
    SelectorDIC.select dicCtx1 = none :=
  ⟨(SelectorDIC_single_label dicCtx1 rfl rfl).1 2,
   (SelectorDIC_single_label dicCtx1 rfl rfl).2.1,
   (SelectorDIC_single_label dicCtx1 rfl rfl).2.2⟩

/-- The training context of `SelectorCV.select`.  `nSeq` is
`len(self.sequences)`.  The fold split (external `KFold`) is modelled from
the spec: a deterministic partition into the fixed fold count k = 3;
`foldResult n k` is the combined outcome of `combine_sequences`,
`GaussianHMM(n_components=n).fit` and `model.score` on fold `k` of
candidate `n` — `none` when any of them raises. -/
structure CVContext (M : Type) where
  nSeq : ℕ
  minN : ℕ
  maxN : ℕ
  foldResult : ℕ → ℕ → Option ℚ
  baseFit : ℕ → Except String M

/-- One CV candidate.  The `try` in the source wraps the ENTIRE fold loop
(my_model_selectors.py lines 139-153), so the first fold that raises aborts
the whole candidate — earlier folds' contributions are discarded, not kept.
When all folds succeed, `logL_avg = logL_sum / 3` (the fixed constant 3). -/
def cvCandidate {M : Type} (ctx : CVContext M) (n : ℕ) : Option ℚ :=
  match collectScores (ctx.foldResult n) [0, 1, 2] with
  | none => none
  | some scores => some (scores.sum / 3)

/-- `best_num_components` of `SelectorCV.select`: with at least 3 sequences
the maximum-tracking loop from the sentinel `(0, -np.inf)`, otherwise the
fixed fallback 3. -/
def cvBestN {M : Type} (ctx : CVContext M) : ℕ :=
  if 3 ≤ ctx.nSeq then
    (maxLoop (cvCandidate ctx) (candidates ctx.minN ctx.maxN) (0, ⊥)).1
  else 3

/-- `SelectorCV.select`: `return self.base_model(best_num_components)`. -/
def SelectorCV.select {M : Type} (ctx : CVContext M) : Option M :=
  base_model ctx.baseFit (cvBestN ctx)

/-- Modelled from the spec: the fold average as the claim describes it —
folds that raise are silently skipped with the remaining folds still
contributing, and the sum of the successful folds' log-likelihoods is
divided by the fixed fold count 3. -/
def cvCandidateSpec {M : Type} (ctx : CVContext M) (n : ℕ) : ℚ :=
  (([0, 1, 2].filterMap (ctx.foldResult n)).sum) / 3

/-- Concrete CV context: candidate 2 scores folds 10, (raise), 10;
candidate 3 scores 3 on every fold. -/
def cvCtxC : CVContext ℕ where
  nSeq := 5
  minN := 2
  maxN := 3
  foldResult := fun n k =>
    if n = 2 then (if k = 1 then none else some 10) else some 3
  baseFit := fitW

theorem collectScores_none {α : Type} (f : α → Option ℚ) :
    ∀ (l : List α) (a : α), a ∈ l → f a = none → collectScores f l = none := by
  intro l
  induction l with
  | nil => intro a ha; exact absurd ha (List.not_mem_nil a)
  | cons x rest ih =>
    intro a ha hfa
    rcases List.mem_cons.mp ha with h | h
    · subst h
      simp only [collectScores, hfa]
    · cases hx : f x with
      | none => simp only [collectScores, hx]
      | some v => simp only [collectScores, hx, ih a h hfa]

/-- C4 counterexample: under the claim's semantics candidate 2 of `cvCtxC`
keeps its two surviving folds and averages `(10 + 10)/3 = 20/3`, beating
candidate 3's average 3; but the code aborts candidate 2 entirely at the
failing fold (`cvCandidate cvCtxC 2 = none`), so the selector picks 3. -/
theorem cv_fold_skip_counterexample :
    cvCandidate cvCtxC 2 = none ∧
    cvCandidateSpec cvCtxC 2 = 20 / 3 ∧
    cvCandidateSpec cvCtxC 3 = 3 ∧
    (3 : ℚ) < 20 / 3 ∧
    SelectorCV.select cvCtxC = some 3 := by
  refine ⟨rfl, ?_, ?_, by norm_num, ?_⟩
  · norm_num [cvCandidateSpec, cvCtxC, List.filterMap_cons]
  · norm_num [cvCandidateSpec, cvCtxC, List.filterMap_cons]
  · rfl

/-- C4 (amended): in `SelectorCV.select`, for every candidate n, a fold
that raises during training or scoring aborts the whole candidate (the
blanket `try` wraps the entire fold loop, so earlier folds' contributions
are discarded and the candidate is skipped); only when all 3 folds succeed
are the per-fold log-likelihoods summed and divided by the fixed fold
count 3. -/
theorem cvCandidate_all_or_nothing {M : Type} (ctx : CVContext M) (n : ℕ) :
    ((∃ k < 3, ctx.foldResult n k = none) → cvCandidate ctx n = none) ∧
    (∀ a b c : ℚ, ctx.foldResult n 0 = some a → ctx.foldResult n 1 = some b →
      ctx.foldResult n 2 = some c →
      cvCandidate ctx n = some ((a + b + c) / 3)) := by
  constructor
  · rintro ⟨k, hk, hnone⟩
    have hmem : k ∈ [0, 1, 2] := by interval_cases k <;> decide
    unfold cvCandidate
    rw [collectScores_none (ctx.foldResult n) [0, 1, 2] k hmem hnone]
  · intro a b c h0 h1 h2
    unfold cvCandidate
    simp only [collectScores, h0, h1, h2, List.sum_cons, List.sum_nil]
    exact congrArg some (by ring)

/-- C4 witness: in `cvCtxC`, fold 1 of candidate 2 raises and the whole
candidate is skipped, while candidate 3's three successful folds average
`(3 + 3 + 3)/3`. -/
theorem cvCandidate_all_or_nothing_witness :
    cvCandidate cvCtxC 2 = none ∧
    cvCandidate cvCtxC 3 = some ((3 + 3 + 3) / 3) :=
  ⟨(cvCandidate_all_or_nothing cvCtxC 2).1 ⟨1, by decide, rfl⟩,
   (cvCandidate_all_or_nothing cvCtxC 3).2 3 3 3 rfl rfl rfl⟩

/-- C6: for a word with fewer than 3 example sequences, `SelectorCV.select`
takes the `else` branch — no cross-validation at all — and returns
`base_model(3)`, the fixed fallback component count, whatever the fold
oracle would have said. -/
theorem SelectorCV_few_sequences {M : Type} (ctx : CVContext M)
    (h : ctx.nSeq < 3) :
    SelectorCV.select ctx = base_model ctx.baseFit 3 := by
  unfold SelectorCV.select cvBestN
  rw [if_neg (not_le.mpr h)]

/-- Concrete CV context with only 2 sequences. -/
def cvCtxF : CVContext ℕ where
  nSeq := 2
  minN := 2
  maxN := 10
  foldResult := fun _ _ => some 100
  baseFit := fitW

/-- C6 witness: `cvCtxF` has 2 sequences, so the selector returns
`base_model(3)` despite its high-scoring fold oracle. -/
theorem SelectorCV_few_sequences_witness :
    SelectorCV.select cvCtxF = base_model cvCtxF.baseFit 3 :=
  SelectorCV_few_sequences cvCtxF (by decide)

/-- The compare-and-update step of the BIC loop, on the observed outcome
`r` of one candidate's training (`none` = skipped by `except: pass`). -/
def bicStepR (n : ℕ) (logN : ℚ) (r : Option (ℚ × ℕ)) (acc : ℕ × WithTop ℚ) :
    ℕ × WithTop ℚ :=
  match r with
  | none => acc
  | some p =>
    if ((-2 * p.1 + ((bic_p_code n p.2 : ℤ) : ℚ) * logN : ℚ) : WithTop ℚ) < acc.2 then
      (n, ((-2 * p.1 + ((bic_p_code n p.2 : ℤ) : ℚ) * logN : ℚ) : WithTop ℚ))
    else acc

/-- The BIC selection loop with the external library's hidden
random-number-generator state made explicit: the candidate training
`GaussianHMM(n_components=n).fit` passes no seed, so each call reads and
advances a hidden state `σ`; `trainR s n` returns the observable outcome
together with the advanced state. -/
def minLoopR {σ : Type} (trainR : σ → ℕ → Option (ℚ × ℕ) × σ) (logN : ℚ) :
    List ℕ → (ℕ × WithTop ℚ) × σ → (ℕ × WithTop ℚ) × σ
  | [], st => st
  | n :: rest, (acc, s) =>
    minLoopR trainR logN rest (bicStepR n logN (trainR s n).1 acc, (trainR s n).2)

/-- One run of the BIC component-count selection against hidden state `s`:
the chosen `best_num_components` and the hidden state the run leaves
behind. -/
def bicBestNRng {σ : Type} (minN maxN : ℕ)
    (trainR : σ → ℕ → Option (ℚ × ℕ) × σ) (logN : ℚ) (s : σ) : ℕ × σ :=
  ((minLoopR trainR logN (candidates minN maxN) ((0, ⊤), s)).1.1,
   (minLoopR trainR logN (candidates minN maxN) ((0, ⊤), s)).2)

theorem minLoopR_fst_congr {σ : Type} (trainR : σ → ℕ → Option (ℚ × ℕ) × σ)
    (logN : ℚ) (hdet : ∀ s t n, (trainR s n).1 = (trainR t n).1) :
    ∀ (l : List ℕ) (acc : ℕ × WithTop ℚ) (s t : σ),
      (minLoopR trainR logN l (acc, s)).1 =
      (minLoopR trainR logN l (acc, t)).1 := by
  intro l
  induction l with
  | nil => intro acc s t; rfl
  | cons n rest ih =>
    intro acc s t
    simp only [minLoopR]
    rw [hdet s t n]
    exact ih _ _ _

/-- The compare-and-update step of the DIC and CV loops
(`if DIC > max_DIC` / `if logL_avg > best_avg`), on the observed outcome
`r` of one candidate's evaluation (`none` = skipped by `except: pass`). -/
def maxStepR (n : ℕ) (r : Option ℚ) (acc : ℕ × WithBot ℚ) : ℕ × WithBot ℚ :=
  match r with
  | none => acc
  | some v => if acc.2 < (v : WithBot ℚ) then (n, (v : WithBot ℚ)) else acc

/-- The DIC/CV selection loop with the hidden random-number-generator state
made explicit, like `minLoopR`: `roundR s n` is one candidate's whole
evaluation (the body of the `try`) against hidden state `s`, returning the
observable value compared by the loop together with the advanced state. -/
def maxLoopR {σ : Type} (roundR : σ → ℕ → Option ℚ × σ) :
    List ℕ → (ℕ × WithBot ℚ) × σ → (ℕ × WithBot ℚ) × σ
  | [], st => st
  | n :: rest, (acc, s) =>
    maxLoopR roundR rest (maxStepR n (roundR s n).1 acc, (roundR s n).2)

/-- One run of a maximum-tracking component-count selection against hidden
state `s`: the chosen `best_num_components` and the state left behind. -/
def maxBestNRng {σ : Type} (minN maxN : ℕ)
    (roundR : σ → ℕ → Option ℚ × σ) (s : σ) : ℕ × σ :=
  ((maxLoopR roundR (candidates minN maxN) ((0, ⊥), s)).1.1,
   (maxLoopR roundR (candidates minN maxN) ((0, ⊥), s)).2)

theorem maxLoopR_fst_congr {σ : Type} (roundR : σ → ℕ → Option ℚ × σ)
    (hdet : ∀ s t n, (roundR s n).1 = (roundR t n).1) :
    ∀ (l : List ℕ) (acc : ℕ × WithBot ℚ) (s t : σ),
      (maxLoopR roundR l (acc, s)).1 =
      (maxLoopR roundR l (acc, t)).1 := by
  intro l
  induction l with
  | nil => intro acc s t; rfl
  | cons n rest ih =>
    intro acc s t
    simp only [maxLoopR]
    rw [hdet s t n]
    exact ih _ _ _

/-- The four selection strategies, as the spec's tagged variant
{Constant, BIC, DIC, CV} (spec section 9). -/
inductive SelectorKind : Type
  | constant : SelectorKind
  | bic : SelectorKind
  | dic : SelectorKind
  | cv : SelectorKind

/-- A `ModelSelector` instance of any strategy, with the external library
hidden random-number-generator state `σ` made explicit.  `nConstant`,
`nSeq`, `minN`, `maxN` are the read-only fields set by `__init__`.  The
candidate training calls `GaussianHMM(n_components=n)` pass no seed, so
each candidate evaluation reads and advances the hidden state:
`bicTrainR s n` is the observable outcome of the fit plus self-score of the BIC candidate (`(logL, model.n_features)`, or `none` when something raised),
`dicRoundR s n` the whole `try` body of the DIC candidate (the DIC value), and
`cvRoundR s n` the whole fold loop of the CV candidate (the `logL_avg`). -/
structure SelectorRng (σ : Type) where
  kind : SelectorKind
  nConstant : ℕ
  nSeq : ℕ
  minN : ℕ
  maxN : ℕ
  bicTrainR : σ → ℕ → Option (ℚ × ℕ) × σ
  bicLogN : ℚ
  dicRoundR : σ → ℕ → Option ℚ × σ
  cvRoundR : σ → ℕ → Option ℚ × σ

/-- One run of `select()` on a `ModelSelector` instance of any strategy
against hidden state `s`: the chosen component count passed to
`base_model`, and the hidden state the run leaves behind.
`SelectorConstant` always chooses `n_constant`; `SelectorBIC` runs the
minimum-tracking loop; `SelectorDIC` the maximum-tracking loop;
`SelectorCV` the maximum-tracking loop when at least 3 sequences exist and
the fixed fallback 3 otherwise. -/
def selectBestNRng {σ : Type} (ms : SelectorRng σ) (s : σ) : ℕ × σ :=
  match ms.kind with
  | .constant => (ms.nConstant, s)
  | .bic => bicBestNRng ms.minN ms.maxN ms.bicTrainR ms.bicLogN s
  | .dic => maxBestNRng ms.minN ms.maxN ms.dicRoundR s
  | .cv =>
    if 3 ≤ ms.nSeq then maxBestNRng ms.minN ms.maxN ms.cvRoundR s
    else (3, s)

/-- C9: for every `ModelSelector` instance of any strategy, if the
underlying fit/score capability is deterministic — the observable outcome
of each candidate evaluation does not depend on the hidden
random-number-generator state, which is what a fixed seed and iteration
cap guarantee — then running `select()` twice in a row on the same
instance (the second run starting from whatever hidden state the first
run left behind) chooses the same component count. -/
theorem select_twice_same_components {σ : Type} (ms : SelectorRng σ)
    (hbic : ∀ s t n, (ms.bicTrainR s n).1 = (ms.bicTrainR t n).1)
    (hdic : ∀ s t n, (ms.dicRoundR s n).1 = (ms.dicRoundR t n).1)
    (hcv : ∀ s t n, (ms.cvRoundR s n).1 = (ms.cvRoundR t n).1)
    (s : σ) :
    (selectBestNRng ms s).1 =
    (selectBestNRng ms (selectBestNRng ms s).2).1 := by
  cases hk : ms.kind with
  | constant => simp [selectBestNRng, hk]
  | bic =>
    simp only [selectBestNRng, hk]
    have h := minLoopR_fst_congr ms.bicTrainR ms.bicLogN hbic
      (candidates ms.minN ms.maxN) (0, ⊤) s
      (bicBestNRng ms.minN ms.maxN ms.bicTrainR ms.bicLogN s).2
    show (minLoopR ms.bicTrainR ms.bicLogN (candidates ms.minN ms.maxN)
        ((0, ⊤), s)).1.1 =
      (minLoopR ms.bicTrainR ms.bicLogN (candidates ms.minN ms.maxN)
        ((0, ⊤),
          (bicBestNRng ms.minN ms.maxN ms.bicTrainR ms.bicLogN s).2)).1.1
    exact congrArg Prod.fst h
  | dic =>
    simp only [selectBestNRng, hk]
    have h := maxLoopR_fst_congr ms.dicRoundR hdic
      (candidates ms.minN ms.maxN) (0, ⊥) s
      (maxBestNRng ms.minN ms.maxN ms.dicRoundR s).2
    show (maxLoopR ms.dicRoundR (candidates ms.minN ms.maxN)
        ((0, ⊥), s)).1.1 =
      (maxLoopR ms.dicRoundR (candidates ms.minN ms.maxN)
        ((0, ⊥), (maxBestNRng ms.minN ms.maxN ms.dicRoundR s).2)).1.1
    exact congrArg Prod.fst h
  | cv =>
    by_cases h3 : 3 ≤ ms.nSeq
    · simp only [selectBestNRng, hk, if_pos h3]
      have h := maxLoopR_fst_congr ms.cvRoundR hcv
        (candidates ms.minN ms.maxN) (0, ⊥) s
        (maxBestNRng ms.minN ms.maxN ms.cvRoundR s).2
      show (maxLoopR ms.cvRoundR (candidates ms.minN ms.maxN)
          ((0, ⊥), s)).1.1 =
        (maxLoopR ms.cvRoundR (candidates ms.minN ms.maxN)
          ((0, ⊥), (maxBestNRng ms.minN ms.maxN ms.cvRoundR s).2)).1.1
      exact congrArg Prod.fst h
    · simp only [selectBestNRng, hk, if_neg h3]

/-- Concrete state-advancing trainer whose observable outcome ignores the
hidden state. -/
def trainRW : ℕ → ℕ → Option (ℚ × ℕ) × ℕ :=
  fun s n => (if n = 2 then some (1, 1) else none, s + 1)

/-- Concrete BIC-strategy instance over hidden state ℕ, all of whose
candidate evaluations advance the state but have state-independent
observable outcomes. -/
def selRngW : SelectorRng ℕ where
  kind := .bic
  nConstant := 3
  nSeq := 5
  minN := 2
  maxN := 3
  bicTrainR := trainRW
  bicLogN := 0
  dicRoundR := fun s n => (if n = 2 then some 1 else none, s + 1)
  cvRoundR := fun s n => (if n = 3 then some 2 else none, s + 1)

/-- C9 witness: two consecutive `select()` runs on the instance `selRngW`
starting from hidden state 0 choose the same component count. -/
theorem select_twice_same_components_witness :
    (selectBestNRng selRngW 0).1 =
    (selectBestNRng selRngW (selectBestNRng selRngW 0).2).1 :=
  select_twice_same_components selRngW (fun _ _ _ => rfl) (fun _ _ _ => rfl)
    (fun _ _ _ => rfl) 0
